import Mathlib

/-!
Verification of the AVL-tree ordered-set container in src/set.cpp.

The template class Set stores unique totally ordered elements in a
self-balancing binary search tree.  The element type is modelled as Int,
which realises the strict-weak-ordering interface the template requires.
Every definition below is a shallow embedding of a member function of
Set or of Set::TNode, translated from the source; the doc comments name
the corresponding C++ entities.

A central modelling point: the TNode constructors (src/set.cpp lines
352-363) initialise left, right and parent but never the private field
int32_t height.  A freshly allocated node therefore carries an
indeterminate stored height, which the surrounding algorithms read
(update_height, diff) before the node ever has its height recomputed -
a newly attached leaf has its height recomputed only when it later gains
a child.  The embedding makes this explicit: every operation that
allocates nodes takes the indeterminate initial height values as extra
parameters (g for insert, gs for copy_all_nodes).  Properties quantified
over these parameters hold for every behaviour the C++ program can
exhibit; concrete choices of the parameters exhibit particular
behaviours that the uninitialised field makes possible.
-/

namespace AVLSet

/-- The tree of TNode objects.  A node carries its left subtree, its
value, the stored int32_t height field, and its right subtree.  The
parent pointer of the C++ node is not stored: set_left, set_right, the
rotations, delete_TNode and copy_all_nodes keep it equal to the inverse
of the child links, and the iterator embedding below recovers it as a
zipper context. -/
inductive Tree where
  | nil  : Tree
  | node : Tree → Int → Int → Tree → Tree
deriving DecidableEq, Repr

/-- The expression (child == nullptr ? 0 : child->height) used by
TNode::diff and TNode::update_height: the stored height of a subtree,
with an absent child contributing 0. -/
def heightOf : Tree → Int
  | .nil => 0
  | .node _ _ h _ => h

/-- TNode::diff: stored height of the left child minus stored height of
the right child.  The C++ method is only ever invoked on non-null
nodes; the nil case returns 0 to totalise the function. -/
def diff : Tree → Int
  | .nil => 0
  | .node l _ _ r => heightOf l - heightOf r

/-- TNode::IMBALANCE_TO_LEFT. -/
def IMBALANCE_TO_LEFT : Int := 2

/-- TNode::IMBALANCE_TO_RIGHT. -/
def IMBALANCE_TO_RIGHT : Int := -2

/-- TNode::TILTED_LEFT. -/
def TILTED_LEFT : Int := 1

/-- TNode::TILTED_RIGHT. -/
def TILTED_RIGHT : Int := -1

/-- The value TNode::update_height assigns: max of the child heights
plus one, absent children contributing 0. -/
def updatedHeight (l r : Tree) : Int := max (heightOf l + 1) (heightOf r + 1)

/-- TNode::set_left: replace the left child and recompute the stored
height of this node via update_height. -/
def set_left : Tree → Tree → Tree
  | .nil, _ => .nil
  | .node _ v _ r, l2 => .node l2 v (updatedHeight l2 r) r

/-- TNode::set_right: replace the right child and recompute the stored
height of this node via update_height. -/
def set_right : Tree → Tree → Tree
  | .nil, _ => .nil
  | .node l v _ _, r2 => .node l v (updatedHeight l r2) r2

/-- Set::increase_left_height, the left rotation: the right child
becomes the subtree root; the old root takes over the former left child
of the new root via set_right (which recomputes the old root height),
then becomes the left child of the new root via set_left (which
recomputes the new root height).  When the right child is absent the
node is returned unchanged. -/
def increase_left_height : Tree → Tree
  | .node l v _ (.node rl rv _ rr) =>
      let a := Tree.node l v (updatedHeight l rl) rl
      Tree.node a rv (updatedHeight a rr) rr
  | t => t

/-- Set::increase_right_height, the right rotation, mirror image of
increase_left_height. -/
def increase_right_height : Tree → Tree
  | .node (.node ll lv _ lr) v _ r =>
      let a := Tree.node lr v (updatedHeight lr r) r
      Tree.node ll lv (updatedHeight ll a) a
  | t => t

/-- Set::balance_node: dispatch on the stored-height difference of the
node and of the child on the heavy side, performing a single or a
double rotation, exactly in the order the C++ if-else chain checks the
four cases. -/
def balance_node : Tree → Tree
  | .nil => .nil
  | .node l v h r =>
      let t := Tree.node l v h r
      if diff t = IMBALANCE_TO_RIGHT ∧ diff r = TILTED_LEFT then
        increase_left_height (set_right t (increase_right_height r))
      else if diff t = IMBALANCE_TO_RIGHT then
        increase_left_height t
      else if diff t = IMBALANCE_TO_LEFT ∧ diff l = TILTED_RIGHT then
        increase_right_height (set_left t (increase_left_height l))
      else if diff t = IMBALANCE_TO_LEFT then
        increase_right_height t
      else t

/-- One iteration of the loop in Set::balance_path for a path node of
index at least 1: update_height, then set_left(balance_node(left)) when
the left child exists, then set_right(balance_node(right)) when the
right child exists. -/
def balance_path_step : Tree → Tree
  | .nil => .nil
  | .node l v _ r =>
      let t1 := Tree.node l v (updatedHeight l r) r
      let t2 := if l = Tree.nil then t1 else set_left t1 (balance_node l)
      if r = Tree.nil then t2 else set_right t2 (balance_node r)

/-- Set::are_equal_values: equivalence under the comparator, requiring
no equality operator on the element type. -/
abbrev are_equal_values (a b : Int) : Prop := ¬ (a < b) ∧ ¬ (b < a)

/-- Set::find, modelled by the value stored at the node the descent
stops at; none models returning the end iterator. -/
def findValue (x : Int) : Tree → Option Int
  | .nil => none
  | .node l v _ r =>
      if ¬ (v < x) ∧ ¬ (x < v) then some v
      else if x < v then findValue x l
      else findValue x r

/-- The in-order list of values of a tree. -/
def inorder : Tree → List Int
  | .nil => []
  | .node l v _ r => inorder l ++ v :: inorder r

/-- The descent, attach and per-ancestor rebalance portion of
Set::insert for a nonempty tree in which the value is absent.  The
descent goes left when x compares below the node value and right
otherwise; the node whose child slot in the descent direction is empty
is path[0] and receives the fresh leaf through set_left or set_right
(the attach direction test path[0]->val < elem agrees with the descent
direction because no node on the path is equivalent to x).  Every
ancestor is a path node of index at least 1 and receives one
balance_path iteration on the way back up; the final
root_ = balance_node(root_) of balance_path is applied by the caller.
The parameter g is the indeterminate initial stored height of the
freshly allocated TNode. -/
def insertGo (g x : Int) : Tree → Tree
  | .nil => .nil
  | .node l v h r =>
      if x < v then
        if l = Tree.nil then set_left (Tree.node l v h r) (Tree.node .nil x g .nil)
        else balance_path_step (Tree.node (insertGo g x l) v h r)
      else
        if r = Tree.nil then set_right (Tree.node l v h r) (Tree.node .nil x g .nil)
        else balance_path_step (Tree.node l v h (insertGo g x r))

/-- The inner descent of Set::erase below the found node x when x has a
left child: walk to the rightmost node of the given nonempty subtree.
That rightmost node is path[0]; delete_TNode splices it out by
attaching its only possible child (its left subtree) to its parent, and
every other node of this spine is a path node of index at least 1 and
receives one balance_path iteration on the way back up.  Returns the
value stored in the removed node together with the new subtree.  The
nil case is never reached: the function is only called on nonempty
subtrees. -/
def removeMax : Tree → Int × Tree
  | .nil => (0, .nil)
  | .node l v h r =>
      if r = Tree.nil then (v, l)
      else
        let p := removeMax r
        (p.fst, balance_path_step (Tree.node l v h p.snd))

/-- The descent, splice and per-ancestor rebalance portion of
Set::erase for a tree that contains the value.  At the node x holding
the equivalent value: when x has no left child, x itself is path[0] and
delete_TNode replaces it by its right child; otherwise the descent
continues to the rightmost node of the left subtree, the values of x
and of that node are swapped, the node is spliced out, and x (now
holding the swapped-in value, its stored height untouched by the swap)
is a path node of index at least 1 and receives one balance_path
iteration.  Ancestors above x likewise receive one balance_path
iteration each; the final root_ = balance_node(root_) is applied by the
caller.  The nil case models the descent running past a leaf, where the
C++ hits assert(0); it is unreachable when the preceding find
succeeded. -/
def eraseGo (x : Int) : Tree → Tree
  | .nil => .nil
  | .node l v h r =>
      if are_equal_values x v then
        if l = Tree.nil then r
        else
          let p := removeMax l
          balance_path_step (Tree.node p.snd p.fst h r)
      else if x < v then balance_path_step (Tree.node (eraseGo x l) v h r)
      else balance_path_step (Tree.node l v h (eraseGo x r))

/-- The whole-x-locating descent of Set::erase, used to model the
assert(0) at src/set.cpp line 140: true exactly when the descent finds
a node holding a value equivalent to x. -/
def eraseLocate (x : Int) : Tree → Bool
  | .nil => false
  | .node l v _ r =>
      if are_equal_values x v then true
      else if x < v then eraseLocate x l
      else eraseLocate x r

/-- The container state: the root tree and the size_ counter. -/
structure SetS where
  root : Tree
  size : Nat
deriving DecidableEq, Repr

/-- The default-constructed Set: null root, size 0. -/
def emptyS : SetS := ⟨.nil, 0⟩

/-- Set::insert.  A no-op when find succeeds; otherwise the size is
incremented and either the root slot receives the fresh node directly
(empty tree, no balance_path) or the descent, attach and rebalance run,
finishing with balance_node on the root.  The parameter g models the
indeterminate initial value of the uninitialised int32_t height field
of the freshly allocated TNode (the TNode(T) constructor at src/set.cpp
line 359 sets left, right and parent but never height). -/
def insertS (g x : Int) (s : SetS) : SetS :=
  if (findValue x s.root).isSome then s
  else if s.root = Tree.nil then ⟨Tree.node .nil x g .nil, s.size + 1⟩
  else ⟨balance_node (insertGo g x s.root), s.size + 1⟩

/-- Set::erase.  A no-op when find fails; otherwise the size is
decremented and the descent, splice and rebalance run, finishing with
balance_node on the root. -/
def eraseS (x : Int) (s : SetS) : SetS :=
  if (findValue x s.root).isSome then ⟨balance_node (eraseGo x s.root), s.size - 1⟩
  else s

/-- The second descent of Set::lower_bound, recording the last node
whose value did not compare below x (last_successful) and finishing at
that record. -/
def lowerBoundGo (x : Int) : Tree → Option Int → Option Int
  | .nil, best => best
  | .node l v _ r, best =>
      if v < x then lowerBoundGo x r best else lowerBoundGo x l (some v)

/-- Set::lower_bound, modelled by the value at the returned node; none
models the end iterator (last_successful == nullptr). -/
def lower_bound_val (x : Int) (t : Tree) : Option Int :=
  if (findValue x t).isSome then findValue x t else lowerBoundGo x t none

/-- Set::copy_all_nodes.  The function gs assigns to each node position
(the path of left/false and right/true steps from the root) the
indeterminate initial stored height of the TNode allocated for that
position.  The stored height recorded by the model for a copied node is
exactly the value its last update_height call computed in the C++
stack-driven clone: a parent has update_height run (inside set_left and
set_right) at the moment its children are attached, when each child
still carries its fresh indeterminate height, and the parent is never
updated again once the grandchildren arrive; a copied leaf never has
update_height run at all and keeps its fresh indeterminate height. -/
def copy_all_nodes (gs : List Bool → Int) (p : List Bool) : Tree → Tree
  | .nil => .nil
  | .node l v _ r =>
      let l2 := copy_all_nodes gs (p ++ [false]) l
      let r2 := copy_all_nodes gs (p ++ [true]) r
      let h2 :=
        if l = Tree.nil ∧ r = Tree.nil then gs p
        else max ((if l = Tree.nil then 0 else gs (p ++ [false])) + 1)
                 ((if r = Tree.nil then 0 else gs (p ++ [true])) + 1)
      Tree.node l2 v h2 r2

/-- The copy constructor Set(const Set&) and the copying branch of
operator=: clone all nodes and take over the size counter. -/
def copyS (gs : List Bool → Int) (s : SetS) : SetS :=
  ⟨copy_all_nodes gs [] s.root, s.size⟩

/-- The container states reachable through the public API: default
construction, insert, erase, and copy construction or copy assignment
from a reachable set (the iterator-range and initializer-list
constructors are loops of insert calls).  Every step quantifies over
the indeterminate initial heights of the nodes it allocates. -/
inductive Reachable : SetS → Prop where
  | empty : Reachable emptyS
  | ins (g x : Int) (s : SetS) : Reachable s → Reachable (insertS g x s)
  | del (x : Int) (s : SetS) : Reachable s → Reachable (eraseS x s)
  | cpy (gs : List Bool → Int) (s : SetS) : Reachable s → Reachable (copyS gs s)

/-- The actual height of a subtree: 0 for an absent tree, one more than
the higher child for a node.  This is the quantity the spec calls the
height (a leaf has height 1); the stored field is supposed to track
it. -/
def realHeight : Tree → Nat
  | .nil => 0
  | .node l _ _ r => max (realHeight l) (realHeight r) + 1

/-- Decides the AVL balance invariant on the actual shape: at every
node the actual heights of the two subtrees differ by at most 1. -/
def isBalancedReal : Tree → Bool
  | .nil => true
  | .node l _ _ r =>
      decide (((realHeight l : Int) - (realHeight r : Int)).natAbs ≤ 1)
        && isBalancedReal l && isBalancedReal r

/-- Decides whether every stored height field equals the actual height
of its subtree. -/
def storedHeightsCorrect : Tree → Bool
  | .nil => true
  | .node l _ h r =>
      decide (h = ((max (realHeight l) (realHeight r) + 1 : Nat) : Int))
        && storedHeightsCorrect l && storedHeightsCorrect r

/-- One ancestry step of the Set::iterator embedding.  The C++ iterator
holds a node pointer and walks parent pointers; since the tree keeps
every parent pointer equal to the inverse of the child link, a position
in the tree is equivalently a zipper: the current subtree plus the
chain of parents.  fromLeft v h r records that the current subtree is
the left child of a parent holding value v and stored height h whose
right subtree is r; fromRight l v h records that it is the right child
of a parent with left subtree l. -/
inductive Crumb where
  | fromLeft  (v h : Int) (r : Tree)
  | fromRight (l : Tree) (v h : Int)
deriving DecidableEq, Repr

/-- The chain of parents of a position, innermost first. -/
abbrev Ctx := List Crumb

/-- An iterator position: the subtree under the pointed-to node plus
its chain of parents.  The pointed-to node is the root of the first
component, which is a node for every position the iterator actually
reaches. -/
abbrev Pos := Tree × Ctx

/-- The descend-to-leftmost loops of Set::set_boundary_iters and of
operator++ (node_ = node_->left while it exists). -/
def leftmostPos : Tree → Ctx → Pos
  | .nil, ctx => (.nil, ctx)
  | .node l v h r, ctx =>
      if l = Tree.nil then (Tree.node l v h r, ctx)
      else leftmostPos l (Crumb.fromLeft v h r :: ctx)

/-- The descend-to-rightmost loops of operator-- (node_ = node_->right
while it exists). -/
def rightmostPos : Tree → Ctx → Pos
  | .nil, ctx => (.nil, ctx)
  | .node l v h r, ctx =>
      if r = Tree.nil then (Tree.node l v h r, ctx)
      else rightmostPos r (Crumb.fromRight l v h :: ctx)

/-- The parent-climbing loop of operator++: climb while the node just
left is the right child of its parent; stop at the first parent reached
from its left child, which is the successor; reaching past the root
yields the end iterator (none). -/
def climbRight : Tree → Ctx → Option Pos
  | _, [] => none
  | t, Crumb.fromRight l v h :: ctx => climbRight (Tree.node l v h t) ctx
  | t, Crumb.fromLeft v h r :: ctx => some (Tree.node t v h r, ctx)

/-- Set::iterator::operator++ on a non-end position: if a right child
exists, move to it and descend leftmost; otherwise climb through
parents while the current node is the right child, stopping at the
first parent reached via a left edge; none is the end iterator. -/
def succPos : Pos → Option Pos
  | (.node l v h r, ctx) =>
      if r = Tree.nil then climbRight (Tree.node l v h r) ctx
      else some (leftmostPos r (Crumb.fromRight l v h :: ctx))
  | (.nil, _) => none

/-- The parent-climbing loop of operator--: climb while the node just
left is the left child of its parent; stop at the first parent reached
from its right child, which is the predecessor.  Climbing past the root
(none) is the assert(0) at src/set.cpp line 228: it happens exactly
when retreating from the minimum element. -/
def climbLeft : Tree → Ctx → Option Pos
  | _, [] => none
  | t, Crumb.fromLeft v h r :: ctx => climbLeft (Tree.node t v h r) ctx
  | t, Crumb.fromRight l v h :: ctx => some (Tree.node l v h t, ctx)

/-- Set::iterator::operator++ viewed on cursors; on the end cursor
(node_ == nullptr) it returns the end cursor unchanged. -/
def advanceCursor : Option Pos → Option Pos
  | none => none
  | some p => succPos p

/-- Iterating operator++ n times. -/
def advanceN : Nat → Option Pos → Option Pos
  | 0, c => c
  | n + 1, c => advanceN n (advanceCursor c)

/-- The value of the node of a position (never applied at nil by the
iteration below). -/
def valAt : Pos → Int
  | (.node _ v _ _, _) => v
  | (.nil, _) => 0

/-- The sequence of values read while advancing a cursor with
operator++ for at most n steps, stopping at the end cursor. -/
def iterVals : Nat → Option Pos → List Int
  | 0, _ => []
  | _ + 1, none => []
  | n + 1, some p => valAt p :: iterVals n (succPos p)

/-- The cached begin iterator: the leftmost node, or the end cursor
(none) for an empty tree, as computed by Set::set_boundary_iters. -/
def beginC : Tree → Option Pos
  | .nil => none
  | .node l v h r => some (leftmostPos (Tree.node l v h r) [])

/-- Set::iterator::operator-- on a cursor over a tree with the given
root.  On the end cursor it restarts at the root and descends
rightmost; on the end cursor of an empty tree the C++ dereferences a
null pointer, a fatal crash, modelled like the assertion by none.  On a
node without a left child it climbs; climbing past the root is the
assert(0) at src/set.cpp line 228, modelled by none.  Every non-fatal
outcome is a node position: operator-- never yields the end cursor. -/
def retreatCursor (root : Tree) : Option Pos → Option Pos
  | none =>
      match root with
      | .nil => none
      | .node l v h r => some (rightmostPos (Tree.node l v h r) [])
  | some (.node l v h r, ctx) =>
      if l = Tree.nil then climbLeft (Tree.node l v h r) ctx
      else some (rightmostPos l (Crumb.fromLeft v h r :: ctx))
  | some (.nil, _) => none

/-- Set::iterator::operator*, which hits assert(0) on a null node
pointer (src/set.cpp line 165); none models the fatal outcome. -/
def derefCursor : Option Pos → Option Int
  | none => none
  | some p => some (valAt p)

/-- Whether a tree is a node (used to report which children the found
node has). -/
def isNode : Tree → Bool
  | .nil => false
  | .node _ _ _ _ => true

/-- The children of the node at which the find descent stops: some
(left child present, right child present), or none when the value is
absent. -/
def findNodeChildren (x : Int) : Tree → Option (Bool × Bool)
  | .nil => none
  | .node l v _ r =>
      if are_equal_values x v then some (isNode l, isNode r)
      else if x < v then findNodeChildren x l
      else findNodeChildren x r

/-- Whether the node structurally removed by Set::erase (path[0], the
argument of delete_TNode) is the found node x itself.  Following the
erase descent literally: after x is found the walk continues into the
left subtree and then right to its end, so path[0] = x exactly when x
has no left child; none when the value is absent and erase is a
no-op. -/
def eraseTargetIsX (x : Int) : Tree → Option Bool
  | .nil => none
  | .node l v _ r =>
      if are_equal_values x v then some (!isNode l)
      else if x < v then eraseTargetIsX x l
      else eraseTargetIsX x r

/-- A Set object for the claims about object identity: the tree
together with an allocation identity.  Distinct live C++ Set objects
own disjoint heap allocations, so a node address is modelled as the
owning object identity paired with the node position in that tree. -/
structure SetObj where
  objId : Nat
  tree : Tree

/-- The path of left (false) and right (true) steps from the root to
the leftmost node. -/
def leftPath : Tree → List Bool
  | .nil => []
  | .node l _ _ _ => if l = Tree.nil then [] else false :: leftPath l

/-- The begin iterator of a Set object as the pair of the node address
and the root address that Set::iterator carries and that operator==
compares componentwise.  For an empty tree both are the null pointer
(none): the default-constructed cached begin iterator is
iterator(nullptr, nullptr), with no allocation identity involved. -/
def beginCursorObj (s : SetObj) : Option (Nat × List Bool) × Option (Nat × List Bool) :=
  match s.tree with
  | .nil => (none, none)
  | .node _ _ _ _ => (some (s.objId, leftPath s.tree), some (s.objId, []))

/-- Set::operator=: compare the begin iterator of the source with the
cached begin iterator of the destination; on equality return the
destination unchanged, otherwise discard the old nodes and deep-copy
the source.  gs supplies the indeterminate initial heights of the nodes
the copy allocates. -/
def assignObj (gs : List Bool → Int) (dst src : SetObj) : SetObj :=
  if beginCursorObj src = beginCursorObj dst then dst
  else ⟨dst.objId, copy_all_nodes gs [] src.tree⟩

/-! ## Rotations and rebalancing preserve the in-order sequence -/

theorem inorder_nil : inorder Tree.nil = [] := rfl

theorem inorder_node (l : Tree) (v h : Int) (r : Tree) :
    inorder (Tree.node l v h r) = inorder l ++ v :: inorder r := rfl

theorem inorder_set_left (l : Tree) (v h : Int) (r l2 : Tree) :
    inorder (set_left (Tree.node l v h r) l2) = inorder l2 ++ v :: inorder r := rfl

theorem inorder_set_right (l : Tree) (v h : Int) (r r2 : Tree) :
    inorder (set_right (Tree.node l v h r) r2) = inorder l ++ v :: inorder r2 := rfl

theorem inorder_increase_left_height (t : Tree) :
    inorder (increase_left_height t) = inorder t := by
  match t with
  | .nil => rfl
  | .node l v h .nil => rfl
  | .node l v h (.node rl rv rh rr) =>
      simp [increase_left_height, inorder, List.append_assoc]

theorem inorder_increase_right_height (t : Tree) :
    inorder (increase_right_height t) = inorder t := by
  match t with
  | .nil => rfl
  | .node .nil v h r => rfl
  | .node (.node ll lv lh lr) v h r =>
      simp [increase_right_height, inorder, List.append_assoc]

theorem inorder_balance_node (t : Tree) :
    inorder (balance_node t) = inorder t := by
  match t with
  | .nil => rfl
  | .node l v h r =>
      simp only [balance_node]
      split_ifs <;>
        simp [inorder_increase_left_height, inorder_increase_right_height,
          inorder_set_left, inorder_set_right, inorder]

theorem inorder_balance_path_step (t : Tree) :
    inorder (balance_path_step t) = inorder t := by
  match t with
  | .nil => rfl
  | .node l v h r =>
      simp only [balance_path_step]
      split_ifs <;>
        simp_all [inorder_set_left, inorder_set_right, set_left, set_right,
          inorder_balance_node, inorder]

/-! ## Sorted-list operations matching insert and erase -/

/-- Insertion of x into a list before the first entry that x compares
below; on the in-order list of the tree this is where insert attaches
the new leaf. -/
def linsert (x : Int) : List Int → List Int
  | [] => [x]
  | a :: l => if x < a then x :: a :: l else a :: linsert x l

/-- Removal of the first entry equivalent to x; on the in-order list of
the tree this is what erase performs. -/
def lerase (x : Int) : List Int → List Int
  | [] => []
  | a :: l => if are_equal_values x a then l else a :: lerase x l

theorem are_equal_values_iff (a b : Int) : are_equal_values a b ↔ a = b := by
  constructor
  · rintro ⟨h1, h2⟩
    omega
  · rintro rfl
    exact ⟨lt_irrefl a, lt_irrefl a⟩

theorem mem_linsert (x y : Int) (L : List Int) :
    y ∈ linsert x L ↔ y = x ∨ y ∈ L := by
  induction L with
  | nil => simp [linsert]
  | cons a l ih =>
      by_cases hx : x < a
      · simp [linsert, hx]
      · simp [linsert, hx, ih]
        tauto

theorem length_linsert (x : Int) (L : List Int) :
    (linsert x L).length = L.length + 1 := by
  induction L with
  | nil => rfl
  | cons a l ih =>
      by_cases hx : x < a
      · simp [linsert, hx]
      · simp [linsert, hx, ih]

theorem sorted_linsert (x : Int) (L : List Int)
    (hs : L.Sorted (· < ·)) (hm : x ∉ L) :
    (linsert x L).Sorted (· < ·) := by
  induction L with
  | nil => simp [linsert]
  | cons a l ih =>
      rw [List.sorted_cons] at hs
      by_cases hx : x < a
      · rw [linsert, if_pos hx, List.sorted_cons]
        refine ⟨?_, ?_⟩
        · intro b hb
          rcases List.mem_cons.mp hb with rfl | hb
          · exact hx
          · exact lt_trans hx (hs.1 b hb)
        · rw [List.sorted_cons]
          exact hs
      · have hne : x ≠ a := fun h => hm (h ▸ List.mem_cons_self a l)
        have hax : a < x := by omega
        rw [linsert, if_neg hx, List.sorted_cons]
        refine ⟨?_, ih hs.2 (fun h => hm (List.mem_cons_of_mem a h))⟩
        intro b hb
        rcases (mem_linsert x b l).mp hb with rfl | hb
        · exact hax
        · exact hs.1 b hb

theorem linsert_append_of_lt (x v : Int) (L R : List Int) (hxv : x < v) :
    linsert x (L ++ v :: R) = linsert x L ++ v :: R := by
  induction L with
  | nil => simp [linsert, hxv]
  | cons a l ih =>
      by_cases hx : x < a
      · simp [linsert, hx]
      · simp [linsert, hx, ih]

theorem linsert_append_of_gt (x v : Int) (L R : List Int)
    (hL : ∀ a ∈ L, a < v) (hvx : v < x) :
    linsert x (L ++ v :: R) = L ++ v :: linsert x R := by
  induction L with
  | nil =>
      have : ¬ x < v := by omega
      simp [linsert, this]
  | cons a l ih =>
      have hav : a < v := hL a (List.mem_cons_self a l)
      have hxa : ¬ x < a := by omega
      simp only [List.cons_append, linsert, List.append_eq]
      rw [if_neg hxa, ih (fun b hb => hL b (List.mem_cons_of_mem a hb))]

theorem lerase_append_of_mem (x : Int) (L M : List Int) (hm : x ∈ L) :
    lerase x (L ++ M) = lerase x L ++ M := by
  induction L with
  | nil => simp at hm
  | cons a l ih =>
      by_cases hx : are_equal_values x a
      · simp only [List.cons_append, lerase, List.append_eq]
        rw [if_pos hx, if_pos hx]
      · have hne : x ≠ a := fun h => hx ((are_equal_values_iff x a).mpr h)
        have hml : x ∈ l := by
          rcases List.mem_cons.mp hm with rfl | h
          · exact absurd rfl hne
          · exact h
        simp only [List.cons_append, lerase, List.append_eq]
        rw [if_neg hx, if_neg hx, ih hml, List.cons_append]

theorem lerase_of_not_mem (x : Int) (L : List Int) (hm : x ∉ L) :
    lerase x L = L := by
  induction L with
  | nil => rfl
  | cons a l ih =>
      have hne : x ≠ a := fun h => hm (h ▸ List.mem_cons_self a l)
      have hx : ¬ are_equal_values x a := fun h => hne ((are_equal_values_iff x a).mp h)
      simp [lerase, hx, ih (fun h => hm (List.mem_cons_of_mem a h))]

theorem lerase_append_not_mem_left (x v : Int) (L R : List Int)
    (hL : x ∉ L) (hv : x ≠ v) :
    lerase x (L ++ v :: R) = L ++ v :: lerase x R := by
  induction L with
  | nil =>
      have hx : ¬ are_equal_values x v := fun h => hv ((are_equal_values_iff x v).mp h)
      simp [lerase, hx]
  | cons a l ih =>
      have hne : x ≠ a := fun h => hL (h ▸ List.mem_cons_self a l)
      have hx : ¬ are_equal_values x a := fun h => hne ((are_equal_values_iff x a).mp h)
      simp [lerase, hx, ih (fun h => hL (List.mem_cons_of_mem a h))]

theorem lerase_sublist (x : Int) (L : List Int) : (lerase x L).Sublist L := by
  induction L with
  | nil => simp [lerase]
  | cons a l ih =>
      by_cases hx : are_equal_values x a
      · rw [lerase, if_pos hx]
        exact List.sublist_cons_self a l
      · rw [lerase, if_neg hx]
        exact ih.cons₂ a

theorem sorted_lerase (x : Int) (L : List Int) (hs : L.Sorted (· < ·)) :
    (lerase x L).Sorted (· < ·) :=
  hs.sublist (lerase_sublist x L)

theorem length_lerase_of_mem (x : Int) (L : List Int) (hm : x ∈ L) :
    (lerase x L).length + 1 = L.length := by
  induction L with
  | nil => simp at hm
  | cons a l ih =>
      by_cases hx : are_equal_values x a
      · rw [lerase, if_pos hx]
        simp
      · have hne : x ≠ a := fun h => hx ((are_equal_values_iff x a).mpr h)
        have hml : x ∈ l := by
          rcases List.mem_cons.mp hm with rfl | h
          · exact absurd rfl hne
          · exact h
        rw [lerase, if_neg hx]
        have := ih hml
        simp only [List.length_cons]
        omega

theorem not_mem_lerase (x : Int) (L : List Int) (hs : L.Sorted (· < ·)) :
    x ∉ lerase x L := by
  induction L with
  | nil => simp [lerase]
  | cons a l ih =>
      rw [List.sorted_cons] at hs
      by_cases hx : are_equal_values x a
      · have hxa : x = a := (are_equal_values_iff x a).mp hx
        rw [lerase, if_pos hx]
        intro hm
        exact absurd (hs.1 x hm) (by omega)
      · rw [lerase, if_neg hx]
        intro hm
        rcases List.mem_cons.mp hm with rfl | hm2
        · exact hx ⟨lt_irrefl x, lt_irrefl x⟩
        · exact ih hs.2 hm2

/-! ## Soundness and completeness of find -/

theorem findValue_sound (x : Int) (t : Tree) (v : Int)
    (hf : findValue x t = some v) : v = x ∧ v ∈ inorder t := by
  induction t with
  | nil => simp [findValue] at hf
  | node l w h r ihl ihr =>
      rw [findValue] at hf
      by_cases he : ¬ (w < x) ∧ ¬ (x < w)
      · rw [if_pos he] at hf
        have hv : w = v := by injection hf
        subst hv
        refine ⟨by omega, ?_⟩
        simp [inorder]
      · rw [if_neg he] at hf
        by_cases hlt : x < w
        · rw [if_pos hlt] at hf
          rcases ihl hf with ⟨h1, h2⟩
          exact ⟨h1, by simp [inorder, h2]⟩
        · rw [if_neg hlt] at hf
          rcases ihr hf with ⟨h1, h2⟩
          exact ⟨h1, by simp [inorder, h2]⟩

theorem findValue_of_not_mem (x : Int) (t : Tree) (hm : x ∉ inorder t) :
    findValue x t = none := by
  cases hf : findValue x t with
  | none => rfl
  | some v =>
      rcases findValue_sound x t v hf with ⟨rfl, h2⟩
      exact absurd h2 hm

theorem findValue_complete (x : Int) (t : Tree)
    (hs : (inorder t).Sorted (· < ·)) (hm : x ∈ inorder t) :
    findValue x t = some x := by
  induction t with
  | nil => simp [inorder] at hm
  | node l w h r ihl ihr =>
      rw [inorder_node] at hm hs
      have hp := List.pairwise_append.mp hs
      rw [findValue]
      by_cases he : ¬ (w < x) ∧ ¬ (x < w)
      · rw [if_pos he]
        have : w = x := by omega
        rw [this]
      · rw [if_neg he]
        by_cases hlt : x < w
        · rw [if_pos hlt]
          have hml : x ∈ inorder l := by
            rcases List.mem_append.mp hm with h1 | h1
            · exact h1
            · rcases List.mem_cons.mp h1 with rfl | h2
              · omega
              · have := (List.sorted_cons.mp hp.2.1).1 x h2
                omega
          exact ihl hp.1 hml
        · rw [if_neg hlt]
          have hwx : w < x := by omega
          have hmr : x ∈ inorder r := by
            rcases List.mem_append.mp hm with h1 | h1
            · have := hp.2.2 x h1 w (List.mem_cons_self w (inorder r))
              omega
            · rcases List.mem_cons.mp h1 with rfl | h2
              · omega
              · exact h2
          exact ihr (List.sorted_cons.mp hp.2.1).2 hmr

/-! ## The in-order sequence after insert -/

theorem inorder_insertGo (g x : Int) (t : Tree)
    (hs : (inorder t).Sorted (· < ·)) (hf : findValue x t = none)
    (hne : t ≠ Tree.nil) :
    inorder (insertGo g x t) = linsert x (inorder t) := by
  induction t with
  | nil => exact absurd rfl hne
  | node l v h r ihl ihr =>
      rw [inorder] at hs
      have hpair := List.pairwise_append.mp hs
      rw [findValue] at hf
      have hneq : ¬ (¬ (v < x) ∧ ¬ (x < v)) := by
        intro hcon
        rw [if_pos hcon] at hf
        exact Option.noConfusion hf
      rw [if_neg hneq] at hf
      rw [insertGo]
      by_cases hlt : x < v
      · rw [if_pos hlt] at hf ⊢
        by_cases hl : l = Tree.nil
        · subst hl
          rw [if_pos rfl, inorder_set_left, inorder_node Tree.nil v h r,
            linsert_append_of_lt x v _ _ hlt]
          rfl
        · rw [if_neg hl, inorder_balance_path_step, inorder_node,
            ihl hpair.1 hf hl, inorder_node, linsert_append_of_lt x v _ _ hlt]
      · rw [if_neg hlt] at hf ⊢
        have hvx : v < x := by omega
        by_cases hr : r = Tree.nil
        · subst hr
          rw [if_pos rfl, inorder_set_right, inorder_node l v h Tree.nil,
            linsert_append_of_gt x v _ _ ?_ hvx]
          · rfl
          · intro a ha
            exact hpair.2.2 a ha v (List.mem_cons_self v (inorder Tree.nil))
        · rw [if_neg hr, inorder_balance_path_step, inorder_node,
            ihr (List.sorted_cons.mp hpair.2.1).2 hf hr, inorder_node,
            linsert_append_of_gt x v _ _ ?_ hvx]
          intro a ha
          exact hpair.2.2 a ha v (List.mem_cons_self v (inorder r))

/-! ## The in-order sequence after erase -/

theorem inorder_removeMax (t : Tree) (hne : t ≠ Tree.nil) :
    inorder t = inorder (removeMax t).2 ++ [(removeMax t).1] := by
  induction t with
  | nil => exact absurd rfl hne
  | node l v h r ihl ihr =>
      rw [removeMax]
      by_cases hr : r = Tree.nil
      · subst hr
        rw [if_pos rfl]
        simp [inorder]
      · rw [if_neg hr]
        simp only [inorder, inorder_balance_path_step]
        rw [ihr hr]
        simp [List.append_assoc]

theorem lerase_append_skip (x : Int) (L M : List Int) (hL : x ∉ L) :
    lerase x (L ++ M) = L ++ lerase x M := by
  induction L with
  | nil => simp
  | cons a l ih =>
      have hne : x ≠ a := fun h => hL (h ▸ List.mem_cons_self a l)
      have hx : ¬ are_equal_values x a := fun h => hne ((are_equal_values_iff x a).mp h)
      rw [List.cons_append, lerase, if_neg hx,
        ih (fun h => hL (List.mem_cons_of_mem a h)), List.cons_append]

theorem inorder_eraseGo (x : Int) (t : Tree)
    (hs : (inorder t).Sorted (· < ·)) (hf : (findValue x t).isSome) :
    inorder (eraseGo x t) = lerase x (inorder t) := by
  induction t with
  | nil => simp [findValue] at hf
  | node l v h r ihl ihr =>
      rw [inorder_node] at hs
      have hpair := List.pairwise_append.mp hs
      rw [findValue] at hf
      rw [eraseGo]
      by_cases he : are_equal_values x v
      · have hxv : x = v := (are_equal_values_iff x v).mp he
        have hnl : x ∉ inorder l := by
          intro hm
          have := hpair.2.2 x hm v (List.mem_cons_self v (inorder r))
          omega
        rw [if_pos he, inorder_node, lerase_append_skip x _ _ hnl, lerase, if_pos he]
        by_cases hl : l = Tree.nil
        · subst hl
          rw [if_pos rfl]
          rfl
        · rw [if_neg hl]
          show inorder (balance_path_step
            (Tree.node (removeMax l).2 (removeMax l).1 h r)) = inorder l ++ inorder r
          rw [inorder_balance_path_step, inorder_node,
            inorder_removeMax l hl, List.append_assoc, List.singleton_append]
      · have hfind : ¬ (¬ (v < x) ∧ ¬ (x < v)) := fun hc => he ⟨hc.2, hc.1⟩
        have hxv : x ≠ v := fun h => he ((are_equal_values_iff x v).mpr h)
        rw [if_neg hfind] at hf
        rw [if_neg he]
        by_cases hlt : x < v
        · rw [if_pos hlt] at hf ⊢
          have hml : x ∈ inorder l := by
            rcases Option.isSome_iff_exists.mp hf with ⟨w, hw⟩
            rcases findValue_sound x l w hw with ⟨h1, h2⟩
            exact h1 ▸ h2
          rw [inorder_balance_path_step, inorder_node,
            ihl hpair.1 hf, inorder_node, lerase_append_of_mem x _ _ hml]
        · rw [if_neg hlt] at hf ⊢
          have hnL : x ∉ inorder l := by
            intro hm
            have := hpair.2.2 x hm v (List.mem_cons_self v (inorder r))
            omega
          rw [inorder_balance_path_step, inorder_node,
            ihr (List.sorted_cons.mp hpair.2.1).2 hf, inorder_node,
            lerase_append_not_mem_left x v _ _ hnL hxv]

/-! ## Copy preserves values and shape -/

/-- The tree with every stored height replaced by 0: the value-and-shape
skeleton. -/
def shapeOf : Tree → Tree
  | .nil => .nil
  | .node l v _ r => .node (shapeOf l) v 0 (shapeOf r)

theorem shapeOf_copy_all_nodes (gs : List Bool → Int) (p : List Bool) (t : Tree) :
    shapeOf (copy_all_nodes gs p t) = shapeOf t := by
  induction t generalizing p with
  | nil => rfl
  | node l v h r ihl ihr =>
      rw [copy_all_nodes]
      simp only [shapeOf]
      rw [ihl, ihr]

theorem inorder_shapeOf (t : Tree) : inorder (shapeOf t) = inorder t := by
  induction t with
  | nil => rfl
  | node l v h r ihl ihr => simp only [shapeOf, inorder_node, ihl, ihr]

theorem inorder_copy_all_nodes (gs : List Bool → Int) (p : List Bool) (t : Tree) :
    inorder (copy_all_nodes gs p t) = inorder t := by
  rw [← inorder_shapeOf (copy_all_nodes gs p t), shapeOf_copy_all_nodes,
    inorder_shapeOf]

/-! ## The reachable-state invariant: sorted in-order list, exact size -/

/-- The invariant all reachable container states enjoy: the in-order
sequence is strictly increasing and the size counter equals the number
of nodes. -/
def Inv (s : SetS) : Prop :=
  (inorder s.root).Sorted (· < ·) ∧ s.size = (inorder s.root).length

theorem inv_insertS (g x : Int) (s : SetS) (hi : Inv s) :
    Inv (insertS g x s) := by
  rcases hi with ⟨hs, hn⟩
  rw [insertS]
  by_cases hf : (findValue x s.root).isSome
  · rw [if_pos hf]
    exact ⟨hs, hn⟩
  · rw [if_neg hf]
    have hfn : findValue x s.root = none := by
      cases h : findValue x s.root with
      | none => rfl
      | some v => rw [h] at hf; simp at hf
    have hnm : x ∉ inorder s.root := by
      intro hm
      rw [findValue_complete x s.root hs hm] at hfn
      exact Option.noConfusion hfn
    by_cases hr : s.root = Tree.nil
    · rw [if_pos hr]
      refine ⟨by simp [inorder_node, inorder_nil], ?_⟩
      simp [inorder_node, inorder_nil, hn, hr, inorder]
    · rw [if_neg hr]
      constructor
      · show (inorder (balance_node (insertGo g x s.root))).Sorted (· < ·)
        rw [inorder_balance_node, inorder_insertGo g x s.root hs hfn hr]
        exact sorted_linsert x _ hs hnm
      · show s.size + 1 = (inorder (balance_node (insertGo g x s.root))).length
        rw [inorder_balance_node, inorder_insertGo g x s.root hs hfn hr,
          length_linsert, hn]

theorem inv_eraseS (x : Int) (s : SetS) (hi : Inv s) :
    Inv (eraseS x s) := by
  rcases hi with ⟨hs, hn⟩
  rw [eraseS]
  by_cases hf : (findValue x s.root).isSome
  · rw [if_pos hf]
    have hm : x ∈ inorder s.root := by
      rcases Option.isSome_iff_exists.mp hf with ⟨w, hw⟩
      rcases findValue_sound x s.root w hw with ⟨h1, h2⟩
      exact h1 ▸ h2
    constructor
    · show (inorder (balance_node (eraseGo x s.root))).Sorted (· < ·)
      rw [inorder_balance_node, inorder_eraseGo x s.root hs hf]
      exact sorted_lerase x _ hs
    · show s.size - 1 = (inorder (balance_node (eraseGo x s.root))).length
      rw [inorder_balance_node, inorder_eraseGo x s.root hs hf, hn]
      have := length_lerase_of_mem x (inorder s.root) hm
      omega
  · rw [if_neg hf]
    exact ⟨hs, hn⟩

theorem inv_copyS (gs : List Bool → Int) (s : SetS) (hi : Inv s) :
    Inv (copyS gs s) := by
  rcases hi with ⟨hs, hn⟩
  constructor
  · show (inorder (copy_all_nodes gs [] s.root)).Sorted (· < ·)
    rw [inorder_copy_all_nodes]
    exact hs
  · show s.size = (inorder (copy_all_nodes gs [] s.root)).length
    rw [inorder_copy_all_nodes]
    exact hn

theorem reachable_inv (s : SetS) (h : Reachable s) : Inv s := by
  induction h with
  | empty => exact ⟨List.sorted_nil, rfl⟩
  | ins g x s _ ih => exact inv_insertS g x s ih
  | del x s _ ih => exact inv_eraseS x s ih
  | cpy gs s _ ih => exact inv_copyS gs s ih

/-! ## The iterator visits the in-order sequence -/

/-- The values still to be visited that are recorded in the parent
chain: a fromLeft parent and everything to its right is ahead of the
cursor, a fromRight parent is behind it. -/
def ctxTail : Ctx → List Int
  | [] => []
  | Crumb.fromLeft v _ r :: ctx => v :: (inorder r ++ ctxTail ctx)
  | Crumb.fromRight _ _ _ :: ctx => ctxTail ctx

/-- The values at and after a position: its own value, its right
subtree, then whatever the parent chain still holds. -/
def restList : Pos → List Int
  | (.nil, ctx) => ctxTail ctx
  | (.node _ v _ r, ctx) => v :: (inorder r ++ ctxTail ctx)

theorem leftmostPos_fst_ne_nil (t : Tree) (ctx : Ctx) (hne : t ≠ Tree.nil) :
    (leftmostPos t ctx).1 ≠ Tree.nil := by
  induction t generalizing ctx with
  | nil => exact absurd rfl hne
  | node l v h r ihl =>
      rw [leftmostPos]
      by_cases hl : l = Tree.nil
      · rw [if_pos hl]
        exact fun hcon => Tree.noConfusion hcon
      · rw [if_neg hl]
        exact ihl _ hl

theorem restList_leftmostPos (t : Tree) (ctx : Ctx) (hne : t ≠ Tree.nil) :
    restList (leftmostPos t ctx) = inorder t ++ ctxTail ctx := by
  induction t generalizing ctx with
  | nil => exact absurd rfl hne
  | node l v h r ihl =>
      rw [leftmostPos]
      by_cases hl : l = Tree.nil
      · subst hl
        rw [if_pos rfl, restList, inorder_node, inorder_nil, List.nil_append,
          List.cons_append]
      · rw [if_neg hl, ihl _ hl, ctxTail, inorder_node, List.append_assoc,
          List.cons_append]

theorem climbRight_none (t : Tree) (ctx : Ctx)
    (h : climbRight t ctx = none) : ctxTail ctx = [] := by
  induction ctx generalizing t with
  | nil => rfl
  | cons c ctx ih =>
      cases c with
      | fromLeft v hh r => rw [climbRight] at h; exact Option.noConfusion h
      | fromRight l v hh => rw [climbRight] at h; exact ih _ h

theorem climbRight_some (t : Tree) (ctx : Ctx) (q : Pos)
    (h : climbRight t ctx = some q) :
    q.1 ≠ Tree.nil ∧ restList q = ctxTail ctx := by
  induction ctx generalizing t with
  | nil => rw [climbRight] at h; exact Option.noConfusion h
  | cons c ctx ih =>
      cases c with
      | fromLeft v hh r =>
          rw [climbRight] at h
          have hq : q = (Tree.node t v hh r, ctx) := by
            injection h with h2
            exact h2.symm
          subst hq
          exact ⟨fun hcon => Tree.noConfusion hcon, rfl⟩
      | fromRight l v hh =>
          rw [climbRight] at h
          exact ih _ h

theorem succPos_none (p : Pos) (hg : p.1 ≠ Tree.nil)
    (h : succPos p = none) : (restList p).tail = [] := by
  rcases p with ⟨t, ctx⟩
  cases t with
  | nil => exact absurd rfl hg
  | node l v hh r =>
      rw [succPos] at h
      by_cases hr : r = Tree.nil
      · rw [if_pos hr] at h
        subst hr
        rw [restList, inorder_nil, List.nil_append, List.tail_cons]
        exact climbRight_none _ _ h
      · rw [if_neg hr] at h
        exact Option.noConfusion h

theorem succPos_some (p : Pos) (q : Pos) (hg : p.1 ≠ Tree.nil)
    (h : succPos p = some q) :
    q.1 ≠ Tree.nil ∧ restList q = (restList p).tail := by
  rcases p with ⟨t, ctx⟩
  cases t with
  | nil => exact absurd rfl hg
  | node l v hh r =>
      rw [succPos] at h
      by_cases hr : r = Tree.nil
      · rw [if_pos hr] at h
        subst hr
        rcases climbRight_some _ _ _ h with ⟨h1, h2⟩
        refine ⟨h1, ?_⟩
        rw [h2, restList, inorder_nil, List.nil_append, List.tail_cons]
      · rw [if_neg hr] at h
        have hq : q = leftmostPos r (Crumb.fromRight l v hh :: ctx) := by
          injection h with h2
          exact h2.symm
        subst hq
        refine ⟨leftmostPos_fst_ne_nil _ _ hr, ?_⟩
        rw [restList_leftmostPos _ _ hr, ctxTail, restList, List.tail_cons]

theorem valAt_head (p : Pos) (hg : p.1 ≠ Tree.nil) :
    restList p = valAt p :: (restList p).tail := by
  rcases p with ⟨t, ctx⟩
  cases t with
  | nil => exact absurd rfl hg
  | node l v hh r => rfl

theorem iterVals_none (n : Nat) : iterVals n none = [] := by
  cases n with
  | zero => rfl
  | succ m => rfl

theorem advanceN_none (n : Nat) : advanceN n none = none := by
  induction n with
  | zero => rfl
  | succ m ih => rw [advanceN, advanceCursor]; exact ih

theorem iterVals_eq_restList (n : Nat) (p : Pos) (hg : p.1 ≠ Tree.nil)
    (hlen : (restList p).length ≤ n) : iterVals n (some p) = restList p := by
  induction n generalizing p with
  | zero =>
      rw [valAt_head p hg] at hlen
      simp at hlen
  | succ m ih =>
      rw [iterVals]
      cases hq : succPos p with
      | none =>
          rw [iterVals_none, valAt_head p hg, succPos_none p hg hq]
      | some q =>
          rcases succPos_some p q hg hq with ⟨h1, h2⟩
          rw [ih q h1 ?_, h2, ← valAt_head p hg]
          rw [valAt_head p hg] at hlen
          rw [h2]
          simp only [List.length_cons] at hlen
          omega

theorem advanceN_reaches_end (n : Nat) (p : Pos) (hg : p.1 ≠ Tree.nil)
    (hlen : (restList p).length ≤ n) : advanceN n (some p) = none := by
  induction n generalizing p with
  | zero =>
      rw [valAt_head p hg] at hlen
      simp at hlen
  | succ m ih =>
      rw [advanceN, advanceCursor]
      cases hq : succPos p with
      | none => exact advanceN_none m
      | some q =>
          rcases succPos_some p q hg hq with ⟨h1, h2⟩
          refine ih q h1 ?_
          rw [h2]
          rw [valAt_head p hg] at hlen
          simp only [List.length_cons] at hlen
          omega

theorem iterVals_beginC (t : Tree) (n : Nat) (hn : n = (inorder t).length) :
    iterVals n (beginC t) = inorder t := by
  cases t with
  | nil => rw [beginC, iterVals_none, inorder_nil]
  | node l v h r =>
      rw [beginC]
      have hne : Tree.node l v h r ≠ Tree.nil := fun hcon => Tree.noConfusion hcon
      have hrest := restList_leftmostPos (Tree.node l v h r) [] hne
      rw [ctxTail, List.append_nil] at hrest
      rw [iterVals_eq_restList n _ (leftmostPos_fst_ne_nil _ _ hne) ?_, hrest]
      rw [hrest, hn]

theorem iterVals_beginC_of_le (t : Tree) (n : Nat)
    (hn : (inorder t).length ≤ n) : iterVals n (beginC t) = inorder t := by
  cases t with
  | nil => rw [beginC, iterVals_none, inorder_nil]
  | node l v h r =>
      rw [beginC]
      have hne : Tree.node l v h r ≠ Tree.nil := fun hcon => Tree.noConfusion hcon
      have hrest := restList_leftmostPos (Tree.node l v h r) [] hne
      rw [ctxTail, List.append_nil] at hrest
      rw [iterVals_eq_restList n _ (leftmostPos_fst_ne_nil _ _ hne) ?_, hrest]
      rw [hrest]
      exact hn

theorem advanceN_beginC (t : Tree) (n : Nat) (hn : n = (inorder t).length) :
    advanceN n (beginC t) = none := by
  cases t with
  | nil => rw [beginC, advanceN_none]
  | node l v h r =>
      rw [beginC]
      have hne : Tree.node l v h r ≠ Tree.nil := fun hcon => Tree.noConfusion hcon
      have hrest := restList_leftmostPos (Tree.node l v h r) [] hne
      rw [ctxTail, List.append_nil] at hrest
      refine advanceN_reaches_end n _ (leftmostPos_fst_ne_nil _ _ hne) ?_
      rw [hrest, hn]

/-! ## Lower bound returns the first element not below the query -/

theorem find?_first_not_lt (x : Int) (L : List Int)
    (hs : L.Sorted (· < ·)) (hm : x ∈ L) :
    L.find? (fun a => !decide (a < x)) = some x := by
  induction L with
  | nil => simp at hm
  | cons a l ih =>
      rw [List.sorted_cons] at hs
      by_cases ha : a < x
      · have hne : x ≠ a := by omega
        have hml : x ∈ l := by
          rcases List.mem_cons.mp hm with rfl | h2
          · exact absurd rfl hne
          · exact h2
        rw [List.find?_cons_of_neg _ (by simp [ha]), ih hs.2 hml]
      · have hax : x = a := by
          rcases List.mem_cons.mp hm with rfl | h2
          · rfl
          · exact absurd (hs.1 x h2) ha
        rw [List.find?_cons_of_pos _ (by simp [ha]), hax]

theorem lowerBoundGo_spec (x : Int) (t : Tree) (best : Option Int)
    (hs : (inorder t).Sorted (· < ·)) :
    lowerBoundGo x t best =
      ((inorder t).find? (fun a => !decide (a < x))).orElse (fun _ => best) := by
  induction t generalizing best with
  | nil => rw [lowerBoundGo, inorder_nil, List.find?_nil, Option.orElse]
  | node l v h r ihl ihr =>
      rw [inorder_node] at hs ⊢
      have hpair := List.pairwise_append.mp hs
      rw [lowerBoundGo, List.find?_append]
      by_cases hv : v < x
      · rw [if_pos hv]
        have hLnone : (inorder l).find? (fun a => !decide (a < x)) = none := by
          rw [List.find?_eq_none]
          intro a ha
          have hav : a < v := hpair.2.2 a ha v (List.mem_cons_self v (inorder r))
          simp
          omega
        rw [hLnone, ihr best (List.sorted_cons.mp hpair.2.1).2,
          List.find?_cons_of_neg _ (by simp [hv])]
        rfl
      · rw [if_neg hv, List.find?_cons_of_pos _ (by simp [hv]),
          ihl (some v) hpair.1]
        cases (inorder l).find? (fun a => !decide (a < x)) with
        | none => rfl
        | some w => rfl

theorem lower_bound_spec (x : Int) (t : Tree)
    (hs : (inorder t).Sorted (· < ·)) :
    lower_bound_val x t = (inorder t).find? (fun a => !decide (a < x)) := by
  rw [lower_bound_val]
  by_cases hf : (findValue x t).isSome
  · rw [if_pos hf]
    rcases Option.isSome_iff_exists.mp hf with ⟨w, hw⟩
    rcases findValue_sound x t w hw with ⟨h1, h2⟩
    rw [hw, h1, find?_first_not_lt x _ hs (h1 ▸ h2)]
  · rw [if_neg hf, lowerBoundGo_spec x t none hs]
    cases (inorder t).find? (fun a => !decide (a < x)) with
    | none => rfl
    | some w => rfl

/-! ## The erase target and the erase-locate descent -/

theorem eraseTargetIsX_spec (x : Int) (t : Tree) :
    eraseTargetIsX x t = (findNodeChildren x t).map (fun c => !c.1) := by
  induction t with
  | nil => rfl
  | node l v h r ihl ihr =>
      rw [eraseTargetIsX, findNodeChildren]
      by_cases he : are_equal_values x v
      · rw [if_pos he, if_pos he]
        rfl
      · rw [if_neg he, if_neg he]
        by_cases hlt : x < v
        · rw [if_pos hlt, if_pos hlt, ihl]
        · rw [if_neg hlt, if_neg hlt, ihr]

theorem eraseLocate_of_found (x : Int) (t : Tree)
    (hf : (findValue x t).isSome) : eraseLocate x t = true := by
  induction t with
  | nil => simp [findValue] at hf
  | node l v h r ihl ihr =>
      rw [findValue] at hf
      rw [eraseLocate]
      by_cases he : are_equal_values x v
      · rw [if_pos he]
      · have hfind : ¬ (¬ (v < x) ∧ ¬ (x < v)) := fun hc => he ⟨hc.2, hc.1⟩
        rw [if_neg hfind] at hf
        rw [if_neg he]
        by_cases hlt : x < v
        · rw [if_pos hlt] at hf
          rw [if_pos hlt]
          exact ihl hf
        · rw [if_neg hlt] at hf
          rw [if_neg hlt]
          exact ihr hf

/-! ## Retreating from the minimum element climbs past the root -/

theorem climbLeft_of_fromLeft (t : Tree) (ctx : Ctx)
    (h : ∀ c ∈ ctx, ∃ a b d, c = Crumb.fromLeft a b d) :
    climbLeft t ctx = none := by
  induction ctx generalizing t with
  | nil => rfl
  | cons c ctx ih =>
      rcases h c (List.mem_cons_self c ctx) with ⟨a, b, d, rfl⟩
      rw [climbLeft]
      exact ih _ (fun c2 hc2 => h c2 (List.mem_cons_of_mem _ hc2))

theorem leftmostPos_shape (t : Tree) (ctx : Ctx) (hne : t ≠ Tree.nil) :
    ∃ v hh r ctx2, leftmostPos t ctx = (Tree.node Tree.nil v hh r, ctx2) ∧
      ∀ c ∈ ctx2, (∃ a b d, c = Crumb.fromLeft a b d) ∨ c ∈ ctx := by
  induction t generalizing ctx with
  | nil => exact absurd rfl hne
  | node l v h r ihl =>
      rw [leftmostPos]
      by_cases hl : l = Tree.nil
      · subst hl
        rw [if_pos rfl]
        exact ⟨v, h, r, ctx, rfl, fun c hc => Or.inr hc⟩
      · rw [if_neg hl]
        rcases ihl (Crumb.fromLeft v h r :: ctx) hl with ⟨v2, h2, r2, ctx2, heq, hctx⟩
        refine ⟨v2, h2, r2, ctx2, heq, fun c hc => ?_⟩
        rcases hctx c hc with h3 | h3
        · exact Or.inl h3
        · rcases List.mem_cons.mp h3 with rfl | h4
          · exact Or.inl ⟨v, h, r, rfl⟩
          · exact Or.inr h4

theorem retreat_from_begin_fatal (t : Tree) (hne : t ≠ Tree.nil) :
    retreatCursor t (beginC t) = none := by
  cases t with
  | nil => exact absurd rfl hne
  | node l v h r =>
      rw [beginC]
      rcases leftmostPos_shape (Tree.node l v h r) [] hne with
        ⟨v2, h2, r2, ctx2, heq, hctx⟩
      rw [heq, retreatCursor, if_pos rfl]
      refine climbLeft_of_fromLeft _ _ (fun c hc => ?_)
      rcases hctx c hc with h3 | h3
      · exact h3
      · simp at h3

/-! ## Membership after insert and erase -/

theorem mem_inorder_insertS (g x : Int) (s : SetS) (hi : Inv s) :
    x ∈ inorder (insertS g x s).root := by
  rw [insertS]
  by_cases hf : (findValue x s.root).isSome
  · rw [if_pos hf]
    rcases Option.isSome_iff_exists.mp hf with ⟨w, hw⟩
    rcases findValue_sound x s.root w hw with ⟨h1, h2⟩
    exact h1 ▸ h2
  · rw [if_neg hf]
    have hfn : findValue x s.root = none := by
      cases hcase : findValue x s.root with
      | none => rfl
      | some w => rw [hcase] at hf; simp at hf
    by_cases hr : s.root = Tree.nil
    · rw [if_pos hr]
      show x ∈ inorder (Tree.node Tree.nil x g Tree.nil)
      rw [inorder_node, inorder_nil]
      simp
    · rw [if_neg hr]
      show x ∈ inorder (balance_node (insertGo g x s.root))
      rw [inorder_balance_node, inorder_insertGo g x s.root hi.1 hfn hr]
      exact (mem_linsert x x _).mpr (Or.inl rfl)

theorem sorted_insertS (g x : Int) (s : SetS) (hi : Inv s) :
    (inorder (insertS g x s).root).Sorted (· < ·) :=
  (inv_insertS g x s hi).1

theorem findValue_eraseS_self (x : Int) (s : SetS) (hi : Inv s) :
    findValue x (eraseS x s).root = none := by
  rw [eraseS]
  by_cases hf : (findValue x s.root).isSome
  · rw [if_pos hf]
    show findValue x (balance_node (eraseGo x s.root)) = none
    refine findValue_of_not_mem x _ ?_
    rw [inorder_balance_node, inorder_eraseGo x s.root hi.1 hf]
    exact not_mem_lerase x _ hi.1
  · rw [if_neg hf]
    cases hcase : findValue x s.root with
    | none => rfl
    | some w => rw [hcase] at hf; simp at hf

/-! ## Distinct objects and begin-cursor identity -/

theorem beginCursorObj_eq_iff (dst src : SetObj) (hid : dst.objId ≠ src.objId) :
    (beginCursorObj src = beginCursorObj dst ↔
      src.tree = Tree.nil ∧ dst.tree = Tree.nil) := by
  rcases dst with ⟨i, t⟩
  rcases src with ⟨j, u⟩
  simp only at hid
  cases t with
  | nil =>
      cases u with
      | nil => simp [beginCursorObj]
      | node ul uv uh ur =>
          simp only [beginCursorObj]
          constructor
          · intro hcon
            injection hcon with hcon1
            exact absurd hcon1 (by simp)
          · rintro ⟨hcon, -⟩
            exact Tree.noConfusion hcon
  | node tl tv th tr =>
      cases u with
      | nil =>
          simp only [beginCursorObj]
          constructor
          · intro hcon
            injection hcon with hcon1
            exact absurd hcon1.symm (by simp)
          · rintro ⟨-, hcon⟩
            exact Tree.noConfusion hcon
      | node ul uv uh ur =>
          simp only [beginCursorObj]
          constructor
          · intro hcon
            injection hcon with hcon1
            rw [Option.some_inj] at hcon1
            exact absurd (congrArg Prod.fst hcon1).symm hid
          · rintro ⟨hcon, -⟩
            exact Tree.noConfusion hcon

/-! ## The claims -/

/-- Claim C1: for every sequence of public API operations (construct,
insert, erase, copy, assignment), the in-order traversal obtained by
repeatedly advancing the cursor from begin() is a strictly increasing
sequence under the comparator, and after size() advances the cursor has
reached end(). -/
theorem avl_C1_traversal_strictly_increasing (s : SetS) (h : Reachable s) :
    (iterVals s.size (beginC s.root)).Sorted (· < ·) ∧
      advanceN s.size (beginC s.root) = none := by
  rcases reachable_inv s h with ⟨hs, hn⟩
  refine ⟨?_, advanceN_beginC s.root s.size hn⟩
  rw [iterVals_beginC s.root s.size hn]
  exact hs

/-- Witness for C1 at the reachable set built by inserting 7 and then 2
(fresh node heights 1). -/
theorem avl_C1_traversal_strictly_increasing_witness :
    (iterVals (insertS 1 2 (insertS 1 7 emptyS)).size
        (beginC (insertS 1 2 (insertS 1 7 emptyS)).root)).Sorted (· < ·) ∧
      advanceN (insertS 1 2 (insertS 1 7 emptyS)).size
        (beginC (insertS 1 2 (insertS 1 7 emptyS)).root) = none :=
  avl_C1_traversal_strictly_increasing _
    (Reachable.ins 1 2 _ (Reachable.ins 1 7 _ Reachable.empty))

/-- Claim C2 fails on the code: because the TNode constructor leaves
the height field uninitialised, inserting 10, 20, 30 into an empty set
while the fresh nodes of 20 and 30 happen to carry indeterminate
heights -1 and 0 produces the right chain 10-20-30 with no rotation, so
the root violates the AVL balance invariant on actual heights.  The
same sequence with every fresh height equal to 1 (the value the spec
prescribes for a new leaf) is rebalanced correctly, isolating the
missing initialisation as the cause. -/
theorem avl_C2_balance_broken_by_uninitialised_height :
    Reachable (insertS 0 30 (insertS (-1) 20 (insertS 0 10 emptyS))) ∧
      (insertS 0 30 (insertS (-1) 20 (insertS 0 10 emptyS))).root =
        Tree.node Tree.nil 10 2
          (Tree.node Tree.nil 20 1 (Tree.node Tree.nil 30 0 Tree.nil)) ∧
      isBalancedReal (insertS 0 30 (insertS (-1) 20 (insertS 0 10 emptyS))).root
        = false ∧
      isBalancedReal (insertS 1 30 (insertS 1 20 (insertS 1 10 emptyS))).root
        = true :=
  ⟨Reachable.ins 0 30 _ (Reachable.ins (-1) 20 _ (Reachable.ins 0 10 _
    Reachable.empty)), by decide, by decide, by decide⟩

/-- Claim C3: on every reachable set, lower_bound(v) returns the first
element of the sorted in-order sequence that is not less than v, and
the end cursor (none) when every element is less than v; List.find?
with the predicate (not below v) is exactly that specification. -/
theorem avl_C3_lower_bound_first_not_less (s : SetS) (h : Reachable s) (x : Int) :
    lower_bound_val x s.root =
      (inorder s.root).find? (fun a => !decide (a < x)) :=
  lower_bound_spec x s.root (reachable_inv s h).1

/-- Witness for C3 at the reachable set holding 3 and 7, queried at 6. -/
theorem avl_C3_lower_bound_first_not_less_witness :
    lower_bound_val 6 (insertS 1 7 (insertS 1 3 emptyS)).root =
      (inorder (insertS 1 7 (insertS 1 3 emptyS)).root).find?
        (fun a => !decide (a < 6)) :=
  avl_C3_lower_bound_first_not_less _
    (Reachable.ins 1 7 _ (Reachable.ins 1 3 _ Reachable.empty)) 6

/-- Claim C4: on every reachable set, after insert(v) the find(v)
cursor is dereferenceable and holds a value equivalent to v, and after
a subsequent erase(v) the find(v) call returns the end cursor. -/
theorem avl_C4_round_trip (s : SetS) (h : Reachable s) (g x : Int) :
    (∃ v, findValue x (insertS g x s).root = some v ∧ are_equal_values x v) ∧
      findValue x (eraseS x (insertS g x s)).root = none := by
  have hi := reachable_inv s h
  have hi1 : Inv (insertS g x s) := inv_insertS g x s hi
  have hmem : x ∈ inorder (insertS g x s).root := mem_inorder_insertS g x s hi
  refine ⟨⟨x, findValue_complete x _ hi1.1 hmem,
    lt_irrefl x, lt_irrefl x⟩, ?_⟩
  exact findValue_eraseS_self x _ hi1

/-- Witness for C4 at the reachable set holding 2, inserting and then
erasing 5. -/
theorem avl_C4_round_trip_witness :
    (∃ v, findValue 5 (insertS 1 5 (insertS 1 2 emptyS)).root = some v ∧
        are_equal_values 5 v) ∧
      findValue 5 (eraseS 5 (insertS 1 5 (insertS 1 2 emptyS))).root = none :=
  avl_C4_round_trip _ (Reachable.ins 1 2 _ Reachable.empty) 1 5

/-- Claim C5: on every reachable set the size counter equals the count
of elements visited from begin() to end(): advancing size() times from
begin() already reaches the end cursor, and the traversal with any fuel
of at least size() visits exactly size() elements, so the values read
between begin() and end() number exactly size().  Furthermore insert
increments the counter exactly when the value was absent, erase
decrements it exactly when the value was present, and the counter never
underflows because it is at least 1 whenever an erase can succeed. -/
theorem avl_C5_size_consistency (s : SetS) (h : Reachable s) :
    advanceN s.size (beginC s.root) = none ∧
      (∀ n, s.size ≤ n → s.size = (iterVals n (beginC s.root)).length) ∧
      (∀ g x, (insertS g x s).size =
        if (findValue x s.root).isSome then s.size else s.size + 1) ∧
      (∀ x, (eraseS x s).size =
        if (findValue x s.root).isSome then s.size - 1 else s.size) ∧
      (∀ x, (findValue x s.root).isSome → 1 ≤ s.size) := by
  rcases reachable_inv s h with ⟨hs, hn⟩
  refine ⟨advanceN_beginC s.root s.size hn, ?_, ?_, ?_, ?_⟩
  · intro n hle
    rw [iterVals_beginC_of_le s.root n (hn ▸ hle)]
    exact hn
  · intro g x
    by_cases hf : (findValue x s.root).isSome
    · rw [insertS, if_pos hf, if_pos hf]
    · rw [insertS, if_neg hf, if_neg hf]
      by_cases hr : s.root = Tree.nil
      · rw [if_pos hr]
      · rw [if_neg hr]
  · intro x
    by_cases hf : (findValue x s.root).isSome
    · rw [eraseS, if_pos hf, if_pos hf]
    · rw [eraseS, if_neg hf, if_neg hf]
  · intro x hf
    rcases Option.isSome_iff_exists.mp hf with ⟨w, hw⟩
    rcases findValue_sound x s.root w hw with ⟨h1, h2⟩
    have hlen : (inorder s.root).length ≠ 0 := by
      intro h0
      rw [List.length_eq_zero] at h0
      rw [h0] at h2
      simp at h2
    omega

/-- Witness for C5 at the reachable set holding 4 and 9. -/
theorem avl_C5_size_consistency_witness :
    advanceN (insertS 1 9 (insertS 1 4 emptyS)).size
        (beginC (insertS 1 9 (insertS 1 4 emptyS)).root) = none ∧
      (∀ n, (insertS 1 9 (insertS 1 4 emptyS)).size ≤ n →
        (insertS 1 9 (insertS 1 4 emptyS)).size =
          (iterVals n (beginC (insertS 1 9 (insertS 1 4 emptyS)).root)).length) ∧
      (∀ g x, (insertS g x (insertS 1 9 (insertS 1 4 emptyS))).size =
        if (findValue x (insertS 1 9 (insertS 1 4 emptyS)).root).isSome then
          (insertS 1 9 (insertS 1 4 emptyS)).size
        else (insertS 1 9 (insertS 1 4 emptyS)).size + 1) ∧
      (∀ x, (eraseS x (insertS 1 9 (insertS 1 4 emptyS))).size =
        if (findValue x (insertS 1 9 (insertS 1 4 emptyS)).root).isSome then
          (insertS 1 9 (insertS 1 4 emptyS)).size - 1
        else (insertS 1 9 (insertS 1 4 emptyS)).size) ∧
      (∀ x, (findValue x (insertS 1 9 (insertS 1 4 emptyS)).root).isSome →
        1 ≤ (insertS 1 9 (insertS 1 4 emptyS)).size) :=
  avl_C5_size_consistency _ (Reachable.ins 1 9 _ (Reachable.ins 1 4 _
    Reachable.empty))

/-- Claim C6 fails on the code: copying the reachable set holding 1..5
(a tree of actual height 3 whose stored heights are all correct)
produces a copy with the same elements but wrong stored heights, even
when every node the copy allocates happens to start with height 1 (the
value the spec prescribes): copy_all_nodes runs update_height on a
parent while its children are freshly made and never again, so the
copied root stores 2 instead of 3. -/
theorem avl_C6_copy_breaks_stored_heights :
    storedHeightsCorrect
        (insertS 1 5 (insertS 1 4 (insertS 1 3 (insertS 1 2
          (insertS 1 1 emptyS))))).root = true ∧
      realHeight
        (insertS 1 5 (insertS 1 4 (insertS 1 3 (insertS 1 2
          (insertS 1 1 emptyS))))).root = 3 ∧
      storedHeightsCorrect
        (copyS (fun _ => 1) (insertS 1 5 (insertS 1 4 (insertS 1 3
          (insertS 1 2 (insertS 1 1 emptyS)))))).root = false ∧
      inorder (copyS (fun _ => 1) (insertS 1 5 (insertS 1 4 (insertS 1 3
          (insertS 1 2 (insertS 1 1 emptyS)))))).root =
        inorder (insertS 1 5 (insertS 1 4 (insertS 1 3 (insertS 1 2
          (insertS 1 1 emptyS))))).root := by
  refine ⟨by decide, by decide, by decide, by decide⟩

/-- Claim C7 as stated is false: the begin cursors of two distinct
empty Set objects are both iterator(nullptr, nullptr), so they compare
equal under operator== even though the objects are distinct. -/
theorem avl_C7_counterexample :
    beginCursorObj ⟨0, Tree.nil⟩ = beginCursorObj ⟨1, Tree.nil⟩ ∧
      (0 : Nat) ≠ 1 :=
  ⟨rfl, by decide⟩

/-- Claim C7 amended: assignment between distinct Set objects performs
the deep copy whenever at least one of the two trees is nonempty (the
begin cursors then differ, since a nonempty tree contributes its own
allocation identity and an empty one contributes null); two distinct
empty sets are misidentified as self-assignment and skipped, but the
skipped assignment still leaves the destination holding exactly the
elements of the source, so the result is observationally correct in
every case. -/
theorem avl_C7_assignment_behaviour (gs : List Bool → Int) (dst src : SetObj)
    (hid : dst.objId ≠ src.objId) :
    inorder (assignObj gs dst src).tree = inorder src.tree ∧
      ((src.tree ≠ Tree.nil ∨ dst.tree ≠ Tree.nil) →
        assignObj gs dst src = ⟨dst.objId, copy_all_nodes gs [] src.tree⟩) := by
  rw [assignObj]
  by_cases hc : beginCursorObj src = beginCursorObj dst
  · rcases (beginCursorObj_eq_iff dst src hid).mp hc with ⟨hsrc, hdst⟩
    rw [if_pos hc]
    constructor
    · rw [hsrc, hdst]
    · intro hne
      rcases hne with hne | hne
      · exact absurd hsrc hne
      · exact absurd hdst hne
  · rw [if_neg hc]
    exact ⟨inorder_copy_all_nodes gs [] src.tree, fun _ => rfl⟩

/-- Witness for the amended C7 at two distinct objects, a nonempty
source and an empty destination. -/
theorem avl_C7_assignment_behaviour_witness :
    inorder (assignObj (fun _ => 1) ⟨0, Tree.nil⟩
        ⟨1, Tree.node Tree.nil 5 1 Tree.nil⟩).tree =
      inorder (Tree.node Tree.nil 5 1 Tree.nil) ∧
      ((Tree.node Tree.nil 5 1 Tree.nil ≠ Tree.nil ∨ Tree.nil ≠ Tree.nil) →
        assignObj (fun _ => 1) ⟨0, Tree.nil⟩ ⟨1, Tree.node Tree.nil 5 1 Tree.nil⟩ =
          ⟨0, copy_all_nodes (fun _ => 1) [] (Tree.node Tree.nil 5 1 Tree.nil)⟩) :=
  avl_C7_assignment_behaviour (fun _ => 1) ⟨0, Tree.nil⟩
    ⟨1, Tree.node Tree.nil 5 1 Tree.nil⟩ (by decide)

/-- Claim C8 as stated is false: in the reachable set holding 1 and 2
(root 2 with a single left child 1), the found node for erase(2) has
exactly one child, yet the node structurally removed is not x itself:
the descent continues into the left subtree, so the values are swapped
and the predecessor node is spliced out instead. -/
theorem avl_C8_counterexample :
    findNodeChildren 2 (insertS 1 1 (insertS 1 2 emptyS)).root =
        some (true, false) ∧
      eraseTargetIsX 2 (insertS 1 1 (insertS 1 2 emptyS)).root = some false := by
  refine ⟨by decide, by decide⟩

/-- Claim C8 amended: the node structurally removed by erase is the
found node x itself exactly when x has no left child (so also when the
right child is the only child); whenever x has a left child - even when
that left child is the only child - the erase descent continues to the
rightmost node of the left subtree, x receives the value of that node (the
last value of the left subtree in order, its in-order predecessor), and
that rightmost node is spliced out. -/
theorem avl_C8_target_selection (x : Int) (t : Tree) :
    eraseTargetIsX x t = (findNodeChildren x t).map (fun c => !c.1) ∧
      (∀ (l r : Tree) (v h : Int), l ≠ Tree.nil → are_equal_values x v →
        eraseGo x (Tree.node l v h r) =
          balance_path_step (Tree.node (removeMax l).2 (removeMax l).1 h r) ∧
        inorder l = inorder (removeMax l).2 ++ [(removeMax l).1]) := by
  refine ⟨eraseTargetIsX_spec x t, fun l r v h hl he => ⟨?_, inorder_removeMax l hl⟩⟩
  rw [eraseGo, if_pos he, if_neg hl]

/-- Claim C9 as stated is false: applying operator-- to the begin
cursor of the reachable singleton set holding 5 (a valid,
dereferenceable, non-end cursor) climbs past the root and hits the
assert(0) at src/set.cpp line 228 - a third fatal assertion beyond the
two the claim enumerates (null dereference and the erase locate
failure). -/
theorem avl_C9_counterexample :
    beginC (insertS 1 5 emptyS).root ≠ none ∧
      retreatCursor (insertS 1 5 emptyS).root
        (beginC (insertS 1 5 emptyS).root) = none := by
  refine ⟨by decide, by decide⟩

/-- Claim C9 amended: three conditions fail fatally via assertion -
dereferencing an end/null cursor, the internal erase locate failure
(which is indeed unreachable whenever the preceding find succeeded),
and retreating from the minimum element (retreating from the end cursor
of an empty set likewise dereferences null).  Every other outcome is
silent: insert of a present value and erase of an absent value are
no-ops and find misses return the end cursor. -/
theorem avl_C9_fatal_conditions (s : SetS) (h : Reachable s) (g x : Int) :
    ((findValue x s.root).isSome → insertS g x s = s) ∧
      (¬ (findValue x s.root).isSome → eraseS x s = s) ∧
      ((findValue x s.root).isSome → eraseLocate x s.root = true) ∧
      (s.root ≠ Tree.nil → retreatCursor s.root (beginC s.root) = none) ∧
      derefCursor none = none := by
  refine ⟨fun hf => ?_, fun hf => ?_, fun hf => eraseLocate_of_found x s.root hf,
    fun hne => retreat_from_begin_fatal s.root hne, rfl⟩
  · rw [insertS, if_pos hf]
  · rw [eraseS, if_neg hf]

/-- Witness for the amended C9 at the reachable singleton set holding
5, with value 5 and fresh height 1. -/
theorem avl_C9_fatal_conditions_witness :
    ((findValue 5 (insertS 1 5 emptyS).root).isSome →
        insertS 1 5 (insertS 1 5 emptyS) = insertS 1 5 emptyS) ∧
      (¬ (findValue 5 (insertS 1 5 emptyS).root).isSome →
        eraseS 5 (insertS 1 5 emptyS) = insertS 1 5 emptyS) ∧
      ((findValue 5 (insertS 1 5 emptyS).root).isSome →
        eraseLocate 5 (insertS 1 5 emptyS).root = true) ∧
      ((insertS 1 5 emptyS).root ≠ Tree.nil →
        retreatCursor (insertS 1 5 emptyS).root
          (beginC (insertS 1 5 emptyS).root) = none) ∧
      derefCursor none = none :=
  avl_C9_fatal_conditions _ (Reachable.ins 1 5 _ Reachable.empty) 1 5

/-- Claim C10 fails on the code: inserting 1 into an empty set while
the fresh node happens to carry indeterminate height 5 leaves a root
whose stored height field is 5 although its actual height is 1; the
TNode(T) constructor never initialises the height field, so a newly
attached leaf does not have stored height 1.  With the fresh height
equal to 1 the same insert does store correct heights, isolating the
missing initialisation. -/
theorem avl_C10_stored_height_not_initialised :
    (insertS 5 1 emptyS).root = Tree.node Tree.nil 1 5 Tree.nil ∧
      storedHeightsCorrect (insertS 5 1 emptyS).root = false ∧
      storedHeightsCorrect (insertS 1 1 emptyS).root = true := by
  refine ⟨by decide, by decide, by decide⟩

end AVLSet
